import Mathlib

/-!
# Named-pipe transport: framing of envelopes

A verification development for `implant/sliver/transports/namedpipe/namedpipe.go`.

The Go functions `WriteEnvelope`, `ReadEnvelope` and `NamedPipeConnect` are embedded as Lean
functions.  A `net.Conn` is a state machine given by its `Read` and `Write` methods; the
embedding passes the connection state explicitly and keeps a log of the calls made on the
connection, so that "the bytes put on the connection" and "the number of calls" can be stated.
The two unbounded `for` loops of the source take a fuel argument: `none` means that the loop
did not finish within the fuel.

The protobuf codec (`proto.Marshal`, `proto.Unmarshal`) and `url.URL.String` are library code
outside the package: the codec is a parameter, and `NamedPipeConnect` is given the text
returned by `uri.String()`.

`int` is taken to be 64 bits wide, so that `int(uint32)` is the same number.
-/

namespace Namedpipe

/-- One octet. -/
abbrev Byte := Fin 256

/-- The errors that appear in the development (Go `error` values). -/
inductive Error where
  | EOF
  | ErrClosedPipe
  | ErrShortWrite
  | ErrTimeout
  | ErrMarshal
  | ErrUnmarshal
  deriving DecidableEq, Repr

/-- The constant `readBufSizeNamedPipe` (line 42). -/
def readBufSizeNamedPipe : Nat := 1024

/-- The constant `writeBufSizeNamedPipe` (line 43). -/
def writeBufSizeNamedPipe : Nat := 1024

/-- A `net.Conn`, reduced to the two methods the package calls.
`Read s cap` is `conn.Read(buf)` with `len(buf) = cap`: it returns the bytes stored at the
start of `buf` (their number is Go's `n`) and the error.
`Write s p` is `conn.Write(p)`: it returns `n` and the error. -/
structure Conn (σ : Type) where
  Read : σ → Nat → (List Byte × Option Error) × σ
  Write : σ → List Byte → (Nat × Option Error) × σ

/-- One `Write` call as observed on the connection. -/
structure WriteCall where
  p : List Byte
  n : Nat
  err : Option Error
  deriving DecidableEq, Repr

/-- One `Read` call as observed on the connection. -/
structure ReadCall where
  cap : Nat
  bytes : List Byte
  err : Option Error
  deriving DecidableEq, Repr

/-- Connection state together with the log of `Write` calls made so far (oldest first). -/
structure WState (σ : Type) where
  st : σ
  log : List WriteCall
  deriving DecidableEq

/-- Connection state together with the log of `Read` calls made so far (oldest first). -/
structure RState (σ : Type) where
  st : σ
  log : List ReadCall
  deriving DecidableEq

/-- The bytes a sequence of `Write` calls has put on the connection: of each call, the first
`n` bytes of its argument. -/
def wire (log : List WriteCall) : List Byte :=
  log.flatMap fun c => c.p.take c.n

/-- The bytes a sequence of `Read` calls has taken from the connection. -/
def consumed (log : List ReadCall) : List Byte :=
  log.flatMap fun c => c.bytes

/-- `(*conn).Write(p)`, logged.  The count is capped by `len(p)` (`io.Writer`: `0 ≤ n ≤ len(p)`). -/
def connWrite {σ : Type} (c : Conn σ) (w : WState σ) (p : List Byte) :
    (Nat × Option Error) × WState σ :=
  let r := c.Write w.st p
  let n := min r.1.1 p.length
  ((n, r.1.2), ⟨r.2, w.log ++ [⟨p, n, r.1.2⟩]⟩)

/-- `(*conn).Read(buf)` with `len(buf) = cap`, logged.  At most `cap` bytes are stored
(`io.Reader`: `0 ≤ n ≤ len(buf)`). -/
def connRead {σ : Type} (c : Conn σ) (r : RState σ) (cap : Nat) :
    (List Byte × Option Error) × RState σ :=
  let x := c.Read r.st cap
  let bs := x.1.1.take cap
  ((bs, x.1.2), ⟨x.2, r.log ++ [⟨cap, bs, x.1.2⟩]⟩)

/-- The Go slice expression `data[lo:hi]` (used only with `lo ≤ hi ≤ len(data)`). -/
def slice (data : List Byte) (lo hi : Nat) : List Byte :=
  (data.drop lo).take (hi - lo)

/-- `binary.Write(buf, binary.LittleEndian, v)` for a `uint32` `v`: four bytes, least
significant first. -/
def putUint32 (v : Nat) : List Byte :=
  [Fin.ofNat (v % 256), Fin.ofNat (v / 256 % 256), Fin.ofNat (v / 65536 % 256),
   Fin.ofNat (v / 16777216 % 256)]

/-- `binary.LittleEndian.Uint32(b)`, reading `b[0..3]`. -/
def Uint32 (b : List Byte) : Nat :=
  (b.getD 0 0).val + 256 * (b.getD 1 0).val + 65536 * (b.getD 2 0).val
    + 16777216 * (b.getD 3 0).val

/-- The contents of a zeroed buffer of `cap` bytes after a `Read` stored `bs` at its start. -/
def fillBuf (cap : Nat) (bs : List Byte) : List Byte :=
  bs.take cap ++ List.replicate (cap - bs.length) 0

/-- The `for totalWritten < len(data)-writeBufSizeNamedPipe` loop of `WriteEnvelope`
(lines 75-83).  The error `err2` of a `Write` is only logged in debug builds. -/
def writeLoop {σ : Type} (c : Conn σ) (data : List Byte) :
    Nat → WState σ → Nat → Option (Nat × WState σ)
  | 0, _, _ => none
  | fuel + 1, w, totalWritten =>
    if (totalWritten : Int) < (data.length : Int) - (writeBufSizeNamedPipe : Int) then
      let r := connWrite c w (slice data totalWritten (totalWritten + writeBufSizeNamedPipe))
      writeLoop c data fuel r.2 (totalWritten + r.1.1)
    else
      some (totalWritten, w)

/-- The part of `WriteEnvelope` after a successful `proto.Marshal` (lines 66-93): the length
prefix, the chunk loop and the remainder.  It returns the value returned by `WriteEnvelope`
(`none` is Go's `nil`) and the connection. -/
def writeFrame {σ : Type} (c : Conn σ) (fuel : Nat) (s : σ) (data : List Byte) :
    Option (Option Error × WState σ) :=
  let dataLengthBuf := putUint32 (data.length % 4294967296)
  let r1 := connWrite c ⟨s, []⟩ dataLengthBuf
  match writeLoop c data fuel r1.2 0 with
  | none => none
  | some (totalWritten, w2) =>
    if totalWritten < data.length then
      let missing := data.length - totalWritten
      let r3 := connWrite c w2 (slice data totalWritten (totalWritten + missing))
      some (none, r3.2)
    else
      some (none, w2)

/-- `WriteEnvelope` (lines 58-94).  `Marshal` is `proto.Marshal`. -/
def WriteEnvelope {σ ε : Type} (Marshal : ε → Except Error (List Byte)) (c : Conn σ)
    (fuel : Nat) (s : σ) (envelope : ε) : Option (Option Error × WState σ) :=
  match Marshal envelope with
  | .error err => some (some err, ⟨s, []⟩)
  | .ok data => writeFrame c fuel s data

/-- What `ReadEnvelope` has done when it leaves the framing part (lines 98-123): either it
returned the error of the prefix `Read`, or it reached `proto.Unmarshal(dataBuf, envelope)`. -/
inductive Framed (σ : Type) where
  | failed (err : Error) (r : RState σ)
  | toCodec (dataBuf : List Byte) (r : RState σ)
  deriving DecidableEq

/-- The `for` loop of `ReadEnvelope` (lines 110-123). -/
def readLoop {σ : Type} (c : Conn σ) (dataLength : Nat) :
    Nat → RState σ → List Byte → Nat → Option (List Byte × RState σ)
  | 0, _, _, _ => none
  | fuel + 1, r, dataBuf, totalRead =>
    let x := connRead c r readBufSizeNamedPipe
    let dataBuf := dataBuf ++ x.1.1
    let totalRead := totalRead + x.1.1.length
    if totalRead = dataLength then some (dataBuf, x.2)
    else if x.1.2.isSome then some (dataBuf, x.2)
    else readLoop c dataLength fuel x.2 dataBuf totalRead

/-- The framing part of `ReadEnvelope` (lines 98-123). -/
def readFrame {σ : Type} (c : Conn σ) (fuel : Nat) (s : σ) : Option (Framed σ) :=
  let x := connRead c ⟨s, []⟩ 4
  match x.1.2 with
  | some err => some (.failed err x.2)
  | none =>
    let dataLengthBuf := fillBuf 4 x.1.1
    let dataLength := Uint32 dataLengthBuf
    match readLoop c dataLength fuel x.2 [] 0 with
    | none => none
    | some (dataBuf, r) => some (.toCodec dataBuf r)

/-- The end of `ReadEnvelope` (lines 124-132): `proto.Unmarshal(dataBuf, envelope)` and the
pair returned after it.  `Unmarshal` is `proto.Unmarshal` into a fresh envelope and `empty` is
`&sliverpb.Envelope{}`; the envelope is `none` for Go's `nil`. -/
def decodeEnvelope {ε : Type} (Unmarshal : List Byte → Except Error ε) (empty : ε)
    (dataBuf : List Byte) : Option ε × Option Error :=
  match Unmarshal dataBuf with
  | .error err => (some empty, some err)
  | .ok envelope => (some envelope, none)

/-- `ReadEnvelope` (lines 97-133): the pair returned by the Go function, and the connection. -/
def ReadEnvelope {σ ε : Type} (Unmarshal : List Byte → Except Error ε) (empty : ε)
    (c : Conn σ) (fuel : Nat) (s : σ) : Option ((Option ε × Option Error) × RState σ) :=
  match readFrame c fuel s with
  | none => none
  | some (.failed err r) => some ((none, some err), r)
  | some (.toCodec dataBuf r) => some (decodeEnvelope Unmarshal empty dataBuf, r)

/-- From state `s`, successive `Read`s into the 1024-byte buffer return exactly `chunks`, in
order, and no error before the last chunk (with the last chunk any error may come).  With no
chunk at all, the next `Read` returns no byte. -/
def Delivers {σ : Type} (c : Conn σ) : σ → List (List Byte) → Prop
  | s, [] => (c.Read s readBufSizeNamedPipe).1.1 = []
  | s, [ch] => (c.Read s readBufSizeNamedPipe).1.1 = ch
  | s, ch :: ch2 :: rest =>
    (c.Read s readBufSizeNamedPipe).1 = (ch, none) ∧
      Delivers c (c.Read s readBufSizeNamedPipe).2 (ch2 :: rest)

/-! ## Concrete connections -/

/-- The reading end of a connection whose peer's behaviour is scripted: each entry is the
chunk the next `Read` returns, with the error reported together with it; a chunk larger than
the buffer is handed out in pieces (the error with the last piece); when the script is used up
every `Read` reports end of stream.  `Write` accepts everything. -/
def scriptConn : Conn (List (List Byte × Option Error)) where
  Read := fun s cap =>
    match s with
    | [] => (([], some Error.EOF), [])
    | (ch, e) :: rest =>
      if ch.length ≤ cap then ((ch, e), rest)
      else ((ch.take cap, none), (ch.drop cap, e) :: rest)
  Write := fun s p => ((p.length, none), s)

/-- A reliable ordered byte stream that hands out `chunks` one per `Read` and then ends. -/
def stream (chunks : List (List Byte)) : List (List Byte × Option Error) :=
  chunks.map fun ch => (ch, none)

/-- A connection whose `Write` accepts every byte it is given, without error. -/
def acceptAll : Conn Unit where
  Read := fun s _ => (([], some Error.EOF), s)
  Write := fun s p => ((p.length, none), s)

/-- A connection whose `Write` accepts at most `k` bytes per call; a call that is given more
reports `ErrShortWrite` together with the count `k` (`io.Writer`: a short count comes with a
non-nil error) and leaves the connection usable. -/
def limitedConn (k : Nat) : Conn Unit where
  Read := fun s _ => (([], some Error.EOF), s)
  Write := fun s p =>
    ((min k p.length, if k < p.length then some Error.ErrShortWrite else none), s)

/-- A connection on which every call fails at once: `Write` returns `(0, ErrClosedPipe)`. -/
def brokenConn : Conn Unit where
  Read := fun s _ => (([], some Error.ErrClosedPipe), s)
  Write := fun s _ => ((0, some Error.ErrClosedPipe), s)

/-- A codec whose envelopes are their own byte image (`Marshal`). -/
def rawMarshal : List Byte → Except Error (List Byte) := fun e => .ok e

/-- A codec whose envelopes are their own byte image (`Unmarshal`). -/
def rawUnmarshal : List Byte → Except Error (List Byte) := fun b => .ok b

/-- Splits a byte string into chunks of one byte. -/
def bytewise (bs : List Byte) : List (List Byte) :=
  bs.map fun b => [b]

/-! ## `NamedPipeConnect` -/

/-- The scan of `strings.ReplaceAll` for a non-empty `old`: occurrences are found from left to
right and do not overlap.  The counter is the number of characters of the occurrence just
replaced that are still to be skipped. -/
def replaceRunes (old new : List Char) : Nat → List Char → List Char
  | _, [] => []
  | skip + 1, _ :: cs => replaceRunes old new skip cs
  | 0, c :: cs =>
    if old.isPrefixOf (c :: cs) then new ++ replaceRunes old new (old.length - 1) cs
    else c :: replaceRunes old new 0 cs

/-- `strings.ReplaceAll(s, old, new)`.  An empty `old` matches before every character and at
the end. -/
def ReplaceAll (s old new : String) : String :=
  if old.data = [] then ⟨new.data ++ s.data.flatMap fun c => c :: new.data⟩
  else ⟨replaceRunes old.data new.data 0 s.data⟩

/-- The address computed by `NamedPipeConnect` (lines 48-50) from the text `uri.String()`. -/
def pipeAddress (uriString : String) : String :=
  let address := uriString
  let address := ReplaceAll address "namedpipe://" ""
  "\\\\" ++ ReplaceAll address "/" "\\"

/-- `NamedPipeConnect` (lines 47-55), given the text `uri.String()`; `DialPipe` is
`winio.DialPipe(address, nil)`. -/
def NamedPipeConnect {α : Type} (DialPipe : String → α) (uriString : String) : α :=
  DialPipe (pipeAddress uriString)

/-- The text `<host>/<seg1>/.../<segn>` that follows the scheme in the URI. -/
def hostPath (host : String) (segs : List String) : String :=
  host ++ String.join (segs.map fun seg => "/" ++ seg)

/-- The text of the URI `namedpipe://<host>/<seg1>/.../<segn>`. -/
def pipeURI (host : String) (segs : List String) : String :=
  "namedpipe://" ++ hostPath host segs

/-- The Windows pipe path `\\<host>\<seg1>\...\<segn>`. -/
def pipePath (host : String) (segs : List String) : String :=
  "\\\\" ++ host ++ String.join (segs.map fun seg => "\\" ++ seg)

/-- The text `s` contains the text `pat`. -/
def containsText (s pat : String) : Prop :=
  pat.data <:+: s.data

instance (s pat : String) : Decidable (containsText s pat) := by
  unfold containsText; infer_instance

/-! ## The writing side -/

theorem wire_append (l : List WriteCall) (call : WriteCall) :
    wire (l ++ [call]) = wire l ++ call.p.take call.n := by
  simp [wire, List.flatMap_append]

theorem putUint32_uint32 (n : Nat) (h : n < 4294967296) :
    putUint32 (n % 4294967296) = putUint32 n := by
  rw [Nat.mod_eq_of_lt h]

theorem slice_append_slice (data : List Byte) (a b c : Nat) (hab : a ≤ b) (hbc : b ≤ c) :
    slice data a b ++ slice data b c = slice data a c := by
  unfold slice
  have h1 : c - a = (b - a) + (c - b) := by omega
  have h2 : List.drop b data = List.drop (b - a) (List.drop a data) := by
    rw [List.drop_drop]; congr 1; omega
  rw [h1, h2, List.take_add]

theorem slice_length (data : List Byte) (a b : Nat) (hb : b ≤ data.length) :
    (slice data a b).length = b - a := by
  unfold slice
  simp
  omega

theorem slice_all (data : List Byte) : slice data 0 data.length = data := by
  simp [slice]

theorem slice_empty (data : List Byte) (a : Nat) : slice data a a = [] := by
  simp [slice]

/-- On a connection that accepts everything, the chunk loop ends and has put on the
connection exactly the bytes between the old and the new value of `totalWritten`. -/
theorem writeLoop_acceptAll {σ : Type} (c : Conn σ) (data : List Byte)
    (hacc : ∀ s p, (c.Write s p).1 = (p.length, none)) :
    ∀ (fuel : Nat) (w : WState σ) (tw : Nat), tw ≤ data.length → data.length < tw + fuel →
      ∃ tw2 w2, writeLoop c data fuel w tw = some (tw2, w2) ∧ tw ≤ tw2 ∧ tw2 ≤ data.length ∧
        data.length ≤ tw2 + 1024 ∧ wire w2.log = wire w.log ++ slice data tw tw2 := by
  intro fuel
  induction fuel with
  | zero => intro w tw h1 h2; omega
  | succ fuel ih =>
    intro w tw h1 h2
    unfold writeLoop
    by_cases hc : (tw : Int) < (data.length : Int) - (writeBufSizeNamedPipe : Int)
    · have hc2 : tw + 1024 < data.length := by
        simp [writeBufSizeNamedPipe] at hc; omega
      have hlen : (slice data tw (tw + writeBufSizeNamedPipe)).length = 1024 := by
        rw [slice_length _ _ _ (by simp [writeBufSizeNamedPipe]; omega)]
        simp [writeBufSizeNamedPipe]
      have hn : (connWrite c w (slice data tw (tw + writeBufSizeNamedPipe))).1.1 = 1024 := by
        simp [connWrite, hacc, hlen]
      have hw : wire (connWrite c w (slice data tw (tw + writeBufSizeNamedPipe))).2.log
          = wire w.log ++ slice data tw (tw + 1024) := by
        simp [connWrite, hacc, hlen, wire_append, writeBufSizeNamedPipe]
      rw [if_pos hc]
      simp only [hn]
      obtain ⟨tw2, w2, e1, e2, e3, e4, e5⟩ :=
        ih (connWrite c w (slice data tw (tw + writeBufSizeNamedPipe))).2 (tw + 1024)
          (by omega) (by omega)
      refine ⟨tw2, w2, e1, by omega, e3, e4, ?_⟩
      rw [e5, hw, List.append_assoc, slice_append_slice _ _ _ _ (by omega) e2]
    · rw [if_neg hc]
      have hc2 : data.length ≤ tw + 1024 := by
        simp [writeBufSizeNamedPipe] at hc; omega
      exact ⟨tw, w, rfl, le_refl _, h1, hc2, by simp [slice_empty]⟩

/-- C1: wire format of `WriteEnvelope`.  For every envelope whose encoded image `data` is
shorter than 2^32 bytes and every connection whose `Write` accepts all the bytes it is given
without error, `WriteEnvelope` finishes (any fuel above `len(data)` is enough), returns `nil`,
and the bytes put on the connection are the 4-byte little-endian encoding of `len(data)`
followed by `data`, nothing else. -/
theorem WriteEnvelope_wire_format {σ ε : Type} (Marshal : ε → Except Error (List Byte))
    (c : Conn σ) (s : σ) (envelope : ε) (data : List Byte) (fuel : Nat)
    (hm : Marshal envelope = .ok data) (hlen : data.length < 4294967296)
    (hacc : ∀ s p, (c.Write s p).1 = (p.length, none)) (hfuel : data.length < fuel) :
    ∃ w, WriteEnvelope Marshal c fuel s envelope = some (none, w) ∧
      wire w.log = putUint32 data.length ++ data := by
  unfold WriteEnvelope
  rw [hm]
  simp only [writeFrame]
  rw [putUint32_uint32 _ hlen]
  obtain ⟨tw2, w2, e1, _, e3, e4, e5⟩ :=
    writeLoop_acceptAll c data hacc fuel (connWrite c ⟨s, []⟩ (putUint32 data.length)).2 0
      (Nat.zero_le _) (by omega)
  rw [e1]
  have hpre : wire (connWrite c ⟨s, []⟩ (putUint32 data.length)).2.log
      = putUint32 data.length := by
    simp [connWrite, hacc, wire, putUint32]
  simp only
  by_cases hlt : tw2 < data.length
  · rw [if_pos hlt]
    refine ⟨_, rfl, ?_⟩
    have hl : (slice data tw2 (tw2 + (data.length - tw2))).length = data.length - tw2 := by
      rw [slice_length _ _ _ (by omega)]; omega
    have hw : wire (connWrite c w2 (slice data tw2 (tw2 + (data.length - tw2)))).2.log
        = wire w2.log ++ slice data tw2 data.length := by
      simp only [connWrite, hacc, wire_append, hl, Nat.min_self]
      rw [List.take_of_length_le (by omega)]
      congr 2
      omega
    rw [hw, e5, hpre, List.append_assoc, slice_append_slice _ _ _ _ (Nat.zero_le _) e3,
      slice_all]
  · rw [if_neg hlt]
    refine ⟨_, rfl, ?_⟩
    have : tw2 = data.length := by omega
    subst this
    rw [e5, hpre, slice_all]

/-- Witness for `WriteEnvelope_wire_format`: a one-byte image over `acceptAll`. -/
theorem WriteEnvelope_wire_format_witness :
    ∃ w, WriteEnvelope rawMarshal acceptAll 2 () [7] = some (none, w) ∧
      wire w.log = putUint32 1 ++ [7] :=
  WriteEnvelope_wire_format rawMarshal acceptAll () [7] [7] 2 rfl (by decide)
    (fun _ _ => rfl) (by decide)


/-! ## The reading side -/

theorem consumed_append (l : List ReadCall) (call : ReadCall) :
    consumed (l ++ [call]) = consumed l ++ call.bytes := by
  simp [consumed, List.flatMap_append]

theorem Uint32_putUint32 (n : Nat) (h : n < 4294967296) :
    Uint32 (fillBuf 4 (putUint32 n)) = n := by
  simp [Uint32, fillBuf, putUint32, Fin.ofNat]
  omega

/-- When the connection delivers `chunks` (non-empty, at most 1024 bytes each) and these are
exactly the bytes still missing, the read loop ends after one `Read` per chunk (one `Read`
when there is no chunk), each with the 1024-byte buffer, with the chunks appended to
`dataBuf`. -/
theorem readLoop_delivers {σ : Type} (c : Conn σ) (dataLength : Nat) :
    ∀ (chunks : List (List Byte)) (fuel : Nat) (r : RState σ) (dataBuf : List Byte)
      (totalRead : Nat), chunks.length < fuel →
      (∀ ch ∈ chunks, ch ≠ [] ∧ ch.length ≤ 1024) → Delivers c r.st chunks →
      dataLength = totalRead + chunks.flatten.length →
      ∃ r2 calls, readLoop c dataLength fuel r dataBuf totalRead
          = some (dataBuf ++ chunks.flatten, r2) ∧
        r2.log = r.log ++ calls ∧ consumed calls = chunks.flatten ∧
        calls.length = max 1 chunks.length ∧
        (∀ call ∈ calls, call.cap = readBufSizeNamedPipe) := by
  intro chunks
  induction chunks with
  | nil =>
    intro fuel r dataBuf totalRead hf _ hd hl
    obtain ⟨f, rfl⟩ : ∃ f, fuel = f + 1 := ⟨fuel - 1, by simp at hf; omega⟩
    simp only [Delivers] at hd
    refine ⟨(connRead c r readBufSizeNamedPipe).2,
      [⟨readBufSizeNamedPipe, [], (c.Read r.st readBufSizeNamedPipe).1.2⟩], ?_, ?_, ?_, ?_, ?_⟩
    · simp [readLoop, connRead, hd, hl]
    · simp [connRead, hd]
    · simp [consumed]
    · simp
    · simp
  | cons ch rest ih =>
    intro fuel r dataBuf totalRead hf hch hd hl
    obtain ⟨f, rfl⟩ : ∃ f, fuel = f + 1 := ⟨fuel - 1, by simp at hf; omega⟩
    have hch1 := hch ch (List.mem_cons_self _ _)
    have htake : List.take readBufSizeNamedPipe ch = ch :=
      List.take_of_length_le (by simpa [readBufSizeNamedPipe] using hch1.2)
    cases rest with
    | nil =>
      simp only [Delivers] at hd
      refine ⟨(connRead c r readBufSizeNamedPipe).2,
        [⟨readBufSizeNamedPipe, ch, (c.Read r.st readBufSizeNamedPipe).1.2⟩],
        ?_, ?_, ?_, ?_, ?_⟩
      · simp [readLoop, connRead, hd, hl, htake]
      · simp [connRead, hd, htake]
      · simp [consumed]
      · simp
      · simp
    | cons ch2 rest =>
      simp only [Delivers] at hd
      obtain ⟨hd1, hd2⟩ := hd
      have hch2 := hch ch2 (by simp)
      have hpos : 0 < ch2.length := List.length_pos.mpr hch2.1
      have hne : ¬ totalRead + ch.length = dataLength := by
        simp at hl; omega
      have hfst : (c.Read r.st readBufSizeNamedPipe).1.1 = ch := by rw [hd1]
      have hsnd : (c.Read r.st readBufSizeNamedPipe).1.2 = none := by rw [hd1]
      obtain ⟨r2, calls, e1, e2, e3, e4, e5⟩ := ih f
        (connRead c r readBufSizeNamedPipe).2 (dataBuf ++ ch) (totalRead + ch.length)
        (by simp at hf ⊢; omega) (fun x hx => hch x (List.mem_cons_of_mem _ hx))
        (by simpa [connRead] using hd2) (by simp at hl ⊢; omega)
      refine ⟨r2, ⟨readBufSizeNamedPipe, ch, none⟩ :: calls, ?_, ?_, ?_, ?_, ?_⟩
      · rw [readLoop]
        simp only [connRead, hfst, hsnd, htake, if_neg hne, Option.isSome_none]
        simp only [connRead, hfst, hsnd, htake] at e1
        simpa using e1
      · rw [e2]; simp [connRead, hfst, hsnd, htake]
      · simp only [consumed, List.flatMap_cons] at e3 ⊢
        rw [e3]; simp
      · simp at e4 ⊢; omega
      · intro call hc
        rcases List.mem_cons.mp hc with h | h
        · rw [h]
        · exact e5 call h

/-- The scripted connection delivers the chunks of a stream. -/
theorem scriptConn_delivers :
    ∀ (chunks : List (List Byte)), (∀ ch ∈ chunks, ch.length ≤ 1024) →
      Delivers scriptConn (stream chunks) chunks := by
  intro chunks
  induction chunks with
  | nil => intro _; simp [Delivers, stream, scriptConn]
  | cons ch rest ih =>
    intro h
    have h1 : ch.length ≤ readBufSizeNamedPipe := by
      simpa [readBufSizeNamedPipe] using h ch (List.mem_cons_self _ _)
    cases rest with
    | nil => simp [Delivers, stream, scriptConn, h1]
    | cons ch2 rest =>
      have := ih (fun x hx => h x (List.mem_cons_of_mem _ hx))
      simp only [Delivers]
      refine ⟨by simp [stream, scriptConn, h1], ?_⟩
      simpa [stream, scriptConn, h1] using this

/-- C10: single-frame read correctness of `ReadEnvelope`.  For every payload `P` of length
`L < 2^32`: if the first `Read` returns the full 4-byte little-endian prefix of `L` without
error and the following `Read`s deliver exactly the bytes of `P` in non-empty chunks of at
most 1024 bytes, no error being reported before the last chunk, then the read loop ends
(any fuel above the number of chunks is enough), the bytes handed to the codec are exactly
`P`, and `ReadEnvelope` returns what the codec makes of `P`. -/
theorem ReadEnvelope_single_frame {σ ε : Type} (Unmarshal : List Byte → Except Error ε)
    (empty : ε) (c : Conn σ) (s s1 : σ) (P : List Byte) (chunks : List (List Byte))
    (fuel : Nat) (hlen : P.length < 4294967296)
    (hpre : c.Read s 4 = ((putUint32 P.length, none), s1))
    (hjoin : chunks.flatten = P) (hch : ∀ ch ∈ chunks, ch ≠ [] ∧ ch.length ≤ 1024)
    (hdel : Delivers c s1 chunks) (hfuel : chunks.length < fuel) :
    ∃ r, readFrame c fuel s = some (.toCodec P r) ∧
      ReadEnvelope Unmarshal empty c fuel s = some (decodeEnvelope Unmarshal empty P, r) ∧
      consumed r.log = putUint32 P.length ++ P := by
  have hx : connRead c ⟨s, []⟩ 4
      = ((putUint32 P.length, none), ⟨s1, [⟨4, putUint32 P.length, none⟩]⟩) := by
    simp [connRead, hpre, putUint32]
  obtain ⟨r2, calls, e1, e2, e3, _, _⟩ := readLoop_delivers c P.length chunks fuel
    ⟨s1, [⟨4, putUint32 P.length, none⟩]⟩ [] 0 hfuel hch hdel (by simp [hjoin])
  have hf : readFrame c fuel s = some (.toCodec P r2) := by
    simp only [readFrame, hx, Uint32_putUint32 _ hlen, e1, hjoin, List.nil_append]
  refine ⟨r2, hf, ?_, ?_⟩
  · simp only [ReadEnvelope, hf]
  · rw [e2, ← hjoin, ← e3]; simp [consumed]

/-- Witness for `ReadEnvelope_single_frame`: the three-byte payload `[7, 8, 9]` arriving as
`[7]` and then `[8, 9]`, the end of stream being reported after the last chunk. -/
theorem ReadEnvelope_single_frame_witness :
    ∃ r, readFrame scriptConn 3 (stream [[3, 0, 0, 0], [7], [8, 9]])
        = some (.toCodec [7, 8, 9] r) ∧
      ReadEnvelope rawUnmarshal [] scriptConn 3 (stream [[3, 0, 0, 0], [7], [8, 9]])
        = some (decodeEnvelope rawUnmarshal [] [7, 8, 9], r) ∧
      consumed r.log = putUint32 3 ++ [7, 8, 9] :=
  ReadEnvelope_single_frame rawUnmarshal [] scriptConn (stream [[3, 0, 0, 0], [7], [8, 9]])
    (stream [[7], [8, 9]]) [7, 8, 9] [[7], [8, 9]] 3 (by decide) (by decide) (by decide)
    (by decide) (scriptConn_delivers _ (by decide)) (by decide)

/-- C2 (failing input): the frame `WriteEnvelope` writes for the one-byte image `[7]` is
`[1, 0, 0, 0, 7]`; when the stream delivers it one byte per `Read`, the single prefix `Read`
of `ReadEnvelope` gets only the byte `1`, the loop then takes the next byte `0` as the whole
payload, and the codec is handed `[0]` instead of `[7]`, three bytes being left in the
stream. -/
theorem ReadEnvelope_bytewise_split :
    (WriteEnvelope rawMarshal acceptAll 1 () [7]).map (fun x => (x.1, wire x.2.log))
        = some (none, [1, 0, 0, 0, 7]) ∧
      ReadEnvelope rawUnmarshal [] scriptConn 1 (stream (bytewise [1, 0, 0, 0, 7]))
        = some ((some [0], none),
            ⟨stream [[0], [0], [7]], [⟨4, [1], none⟩, ⟨1024, [0], none⟩]⟩) := by
  decide

/-- C3 (failing input): the prefix declares 2 bytes, the connection delivers one byte
together with end of stream.  `ReadEnvelope` leaves the loop and hands the single byte `[5]`
to the codec; with a codec that accepts it, the truncated envelope is returned with a `nil`
error. -/
theorem ReadEnvelope_truncated_to_codec :
    readFrame scriptConn 1 [([2, 0, 0, 0], none), ([5], some Error.EOF)]
        = some (.toCodec [5] ⟨[], [⟨4, [2, 0, 0, 0], none⟩, ⟨1024, [5], some Error.EOF⟩]⟩) ∧
      (ReadEnvelope rawUnmarshal [] scriptConn 1
          [([2, 0, 0, 0], none), ([5], some Error.EOF)]).map (fun x => x.1)
        = some (some [5], none) := by
  decide

/-- C4 (failing input): on a connection where every `Write` fails with `(0, ErrClosedPipe)`,
`WriteEnvelope` of the one-byte image `[7]` calls `Write` for the prefix, gets the error,
calls `Write` again for the payload, gets the error again, and returns `nil`. -/
theorem WriteEnvelope_write_error_dropped :
    WriteEnvelope rawMarshal brokenConn 1 () [7]
      = some (none, ⟨(), [⟨[1, 0, 0, 0], 0, some Error.ErrClosedPipe⟩,
          ⟨[7], 0, some Error.ErrClosedPipe⟩]⟩) := by
  decide

/-- C5 (failing input): on a connection that accepts one byte per `Write`, `WriteEnvelope` of
the one-byte image `[7]` returns `nil` after putting `[1, 7]` on the connection: of the four
prefix bytes `[1, 0, 0, 0]` only the first was accepted (the short count and `ErrShortWrite`
are both dropped) and the other three were never written.  With four bytes per `Write` the
prefix is complete but the last byte of the five-byte image `[1, 2, 3, 4, 5]` is lost in the
same way by the final `Write`. -/
theorem WriteEnvelope_short_write_lost :
    (WriteEnvelope rawMarshal (limitedConn 1) 1 () [7]).map (fun x => (x.1, wire x.2.log))
        = some (none, [1, 7]) ∧
      (WriteEnvelope rawMarshal (limitedConn 4) 1 () [1, 2, 3, 4, 5]).map
          (fun x => (x.1, wire x.2.log))
        = some (none, [5, 0, 0, 0, 1, 2, 3, 4]) :=
  ⟨by decide, by decide⟩

/-- C6 (failing input): two frames back to back, the first with an empty payload, the second
with payload `[7]`, delivered one `Write` per `Read`.  The first `ReadEnvelope` reads the
prefix `0`, then reads on: it hands the five bytes of the second frame to the codec and
uses up the whole stream (9 bytes instead of 4); the second `ReadEnvelope` finds the end of
the stream.  Likewise, when the frames of `[7]` and `[9]` are available together, the first
`ReadEnvelope` takes the whole second frame into the payload of the first. -/
theorem ReadEnvelope_reads_past_frame_end :
    (WriteEnvelope rawMarshal acceptAll 1 () []).map (fun x => (x.1, x.2.log.map (·.p)))
        = some (none, [[0, 0, 0, 0]]) ∧
      (WriteEnvelope rawMarshal acceptAll 1 () [7]).map (fun x => (x.1, x.2.log.map (·.p)))
        = some (none, [[1, 0, 0, 0], [7]]) ∧
      ReadEnvelope rawUnmarshal [] scriptConn 3 (stream [[0, 0, 0, 0], [1, 0, 0, 0], [7]])
        = some ((some [1, 0, 0, 0, 7], none),
            ⟨[], [⟨4, [0, 0, 0, 0], none⟩, ⟨1024, [1, 0, 0, 0], none⟩, ⟨1024, [7], none⟩,
              ⟨1024, [], some Error.EOF⟩]⟩) ∧
      ReadEnvelope rawUnmarshal [] scriptConn 3 []
        = some ((none, some Error.EOF), ⟨[], [⟨4, [], some Error.EOF⟩]⟩) ∧
      (ReadEnvelope rawUnmarshal [] scriptConn 3
          (stream [[1, 0, 0, 0, 7, 1, 0, 0, 0, 9]])).map (fun x => (x.1, x.2.st))
        = some ((some [7, 1, 0, 0, 0, 9], none), []) :=
  ⟨by decide, by decide, by decide, by decide, by decide⟩

/-- On the connection where every `Write` returns `(0, ErrClosedPipe)`, the chunk loop makes
no progress from `totalWritten = 0` when the data is longer than one chunk. -/
theorem writeLoop_brokenConn (data : List Byte) (h : 1024 < data.length) :
    ∀ (fuel : Nat) (w : WState Unit), writeLoop brokenConn data fuel w 0 = none := by
  intro fuel
  induction fuel with
  | zero => intro w; rfl
  | succ fuel ih =>
    intro w
    have hc : (0 : Int) < (data.length : Int) - (writeBufSizeNamedPipe : Int) := by
      simp [writeBufSizeNamedPipe]; omega
    rw [writeLoop]
    simp only [Nat.cast_zero, hc, if_true]
    have hn : (connWrite brokenConn w (slice data 0 (0 + writeBufSizeNamedPipe))).1.1 = 0 := by
      simp [connWrite, brokenConn]
    rw [hn]
    exact ih _

/-- C8 (failing input): for an image of 1025 bytes and a connection where every `Write`
returns `(0, ErrClosedPipe)`, `WriteEnvelope` does not finish, whatever the fuel: the chunk
loop repeats the same `Write` with `totalWritten = 0` for ever. -/
theorem WriteEnvelope_loops_on_failing_conn (fuel : Nat) :
    WriteEnvelope rawMarshal brokenConn fuel () (List.replicate 1025 0) = none := by
  have h := writeLoop_brokenConn (List.replicate 1025 0)
    (by rw [List.length_replicate]; omega) fuel
  simp only [WriteEnvelope, rawMarshal, writeFrame, h]

/-! ## The pipe address -/

theorem replaceRunes_skip (old new : List Char) :
    ∀ (xs t : List Char), replaceRunes old new xs.length (xs ++ t) = replaceRunes old new 0 t := by
  intro xs
  induction xs with
  | nil => intro t; rfl
  | cons x xs ih => intro t; simp [replaceRunes, ih]

/-- A text in which `old` does not occur is left as it is. -/
theorem replaceRunes_absent (old new : List Char) :
    ∀ t : List Char, ¬ old <:+: t → replaceRunes old new 0 t = t := by
  intro t
  induction t with
  | nil => intro _; rfl
  | cons c cs ih =>
    intro h
    have hp : ¬ old.isPrefixOf (c :: cs) = true := by
      intro hp
      rw [ List.isPrefixOf_iff_prefix] at hp
      exact h hp.isInfix
    have hcs : ¬ old <:+: cs := fun hi => h (hi.trans (List.suffix_cons c cs).isInfix)
    rw [replaceRunes, if_neg hp, ih hcs]

theorem replaceRunes_scheme (new t : List Char) :
    replaceRunes "namedpipe://".data new 0 ("namedpipe://".data ++ t)
      = new ++ replaceRunes "namedpipe://".data new 0 t := by
  have h := replaceRunes_skip "namedpipe://".data new "amedpipe://".data t
  have hd : "namedpipe://".data = 'n' :: "amedpipe://".data := rfl
  rw [hd, List.cons_append, replaceRunes, if_pos]
  · rw [← hd]
    exact congrArg _ h
  · simp

theorem replaceRunes_slash_cons (new cs : List Char) :
    replaceRunes ['/'] new 0 ('/' :: cs) = new ++ replaceRunes ['/'] new 0 cs := by
  rw [replaceRunes, if_pos (by simp)]
  rfl

theorem replaceRunes_slash_ne (new cs : List Char) (c : Char) (hc : c ≠ '/') :
    replaceRunes ['/'] new 0 (c :: cs) = c :: replaceRunes ['/'] new 0 cs := by
  rw [replaceRunes, if_neg]
  simp [List.isPrefixOf, hc.symm]

theorem replaceRunes_slash_append (new a b : List Char) (ha : '/' ∉ a) :
    replaceRunes ['/'] new 0 (a ++ b) = a ++ replaceRunes ['/'] new 0 b := by
  induction a with
  | nil => rfl
  | cons x a ih =>
    have hx : x ≠ '/' := fun h => ha (by simp [h])
    have ha2 : '/' ∉ a := fun h => ha (List.mem_cons_of_mem _ h)
    rw [List.cons_append, replaceRunes_slash_ne _ _ _ hx, ih ha2, List.cons_append]

theorem replaceRunes_slash_free (l : List Char) :
    '/' ∉ replaceRunes ['/'] ['\\'] 0 l := by
  induction l with
  | nil => simp [replaceRunes]
  | cons c cs ih =>
    by_cases hc : c = '/'
    · subst hc
      rw [replaceRunes_slash_cons]
      simpa using ih
    · rw [replaceRunes_slash_ne _ _ _ hc]
      simp only [List.mem_cons, not_or]
      exact ⟨fun h => hc h.symm, ih⟩

/-- The characters of `<sep><seg1>...<sep><segn>`. -/
theorem segments_data (sep : String) (segs : List String) :
    (String.join (segs.map fun seg => sep ++ seg)).data
      = (segs.map fun seg => sep.data ++ seg.data).flatten := by
  simp [String.data_join, List.map_map, Function.comp_def]

theorem segments_replace (segs : List String) (hsegs : ∀ seg ∈ segs, '/' ∉ seg.data) :
    replaceRunes ['/'] ['\\'] 0 (segs.map fun seg => "/".data ++ seg.data).flatten
      = (segs.map fun seg => "\\".data ++ seg.data).flatten := by
  induction segs with
  | nil => rfl
  | cons seg segs ih =>
    have h1 := hsegs seg (List.mem_cons_self _ _)
    have ih2 := ih (fun x hx => hsegs x (List.mem_cons_of_mem _ hx))
    simp only [List.map_cons, List.flatten_cons]
    show replaceRunes ['/'] ['\\'] 0 ('/' :: (seg.data ++ _)) = _
    rw [replaceRunes_slash_cons, replaceRunes_slash_append _ _ _ h1, ih2]
    rfl

theorem pipeAddress_data (s : String) :
    (pipeAddress s).data
      = ['\\', '\\'] ++ replaceRunes ['/'] ['\\'] 0
          (replaceRunes "namedpipe://".data [] 0 s.data) := by
  have h1 : ¬ "namedpipe://".data = [] := by decide
  have h2 : ¬ "/".data = [] := by decide
  simp only [pipeAddress, ReplaceAll, if_neg h1, if_neg h2, String.data_append]

/-- The address computed for `namedpipe://<host>/<seg1>/.../<segn>` when neither the host
nor a segment contains `/` and the text after the scheme does not contain `namedpipe://`. -/
theorem pipeAddress_pipeURI (host : String) (segs : List String) (hhost : '/' ∉ host.data)
    (hsegs : ∀ seg ∈ segs, '/' ∉ seg.data)
    (hscheme : ¬ containsText (hostPath host segs) "namedpipe://") :
    pipeAddress (pipeURI host segs) = pipePath host segs := by
  apply String.ext
  have hr : (hostPath host segs).data
      = host.data ++ (segs.map fun seg => "/".data ++ seg.data).flatten := by
    simp only [hostPath, String.data_append, segments_data]
  have hu : (pipeURI host segs).data = "namedpipe://".data ++ (hostPath host segs).data := by
    simp only [pipeURI, String.data_append]
  have hp : (pipePath host segs).data
      = ['\\', '\\'] ++ (host.data ++ (segs.map fun seg => "\\".data ++ seg.data).flatten) := by
    simp only [pipePath, String.data_append, segments_data, List.append_assoc]
  rw [pipeAddress_data, hu, hp, replaceRunes_scheme, replaceRunes_absent _ _ _ hscheme,
    List.nil_append, hr, replaceRunes_slash_append _ _ _ hhost, segments_replace segs hsegs]

/-- The side condition on the text is needed: host `h` with the segments `namedpipe:`, the
empty segment and `x` gives the URI text `namedpipe://h/namedpipe://x`, in which the text
after the scheme contains `namedpipe://` although no single segment does; that second
occurrence is removed as well and the address is `\\h\x`. -/
theorem pipeAddress_second_scheme :
    containsText (hostPath "h" ["namedpipe:", "", "x"]) "namedpipe://" ∧
      (∀ seg ∈ ["namedpipe:", "", "x"], ¬ containsText seg "namedpipe://") ∧
      pipeURI "h" ["namedpipe:", "", "x"] = "namedpipe://h/namedpipe://x" ∧
      pipeAddress (pipeURI "h" ["namedpipe:", "", "x"]) = "\\\\h\\x" :=
  ⟨by decide, by decide, by decide, by decide⟩

/-- C9: pipe address normalisation.  For every URI text
`namedpipe://<host>/<seg1>/.../<segn>` whose host and segments contain no `/` and in which
host and segments, as they stand after the scheme, do not contain the text `namedpipe://`
(segments may be empty), the address `NamedPipeConnect` passes to the pipe dialer is two
backslashes, the host, and each segment preceded by one backslash; it contains no `/` and
not the text `namedpipe://`. -/
theorem NamedPipeConnect_address {α : Type} (DialPipe : String → α) (host : String)
    (segs : List String) (hhost : '/' ∉ host.data) (hsegs : ∀ seg ∈ segs, '/' ∉ seg.data)
    (hscheme : ¬ containsText (hostPath host segs) "namedpipe://") :
    NamedPipeConnect DialPipe (pipeURI host segs) = DialPipe (pipePath host segs) ∧
      '/' ∉ (pipeAddress (pipeURI host segs)).data ∧
      ¬ containsText (pipeAddress (pipeURI host segs)) "namedpipe://" := by
  have hfree : ∀ s : String, '/' ∉ (pipeAddress s).data := by
    intro s
    rw [pipeAddress_data]
    simp only [List.mem_append, not_or]
    exact ⟨by decide, replaceRunes_slash_free _⟩
  refine ⟨?_, hfree _, ?_⟩
  · simp only [NamedPipeConnect, pipeAddress_pipeURI host segs hhost hsegs hscheme]
  · intro h
    exact hfree _ (List.IsInfix.subset h (by decide))

/-- Witness for `NamedPipeConnect_address`: `namedpipe://host/pipe//name`, with an empty
segment, is dialled as `\\host\pipe\\name`. -/
theorem NamedPipeConnect_address_witness :
    pipeURI "host" ["pipe", "", "name"] = "namedpipe://host/pipe//name" ∧
      pipePath "host" ["pipe", "", "name"] = "\\\\host\\pipe\\\\name" ∧
      (NamedPipeConnect id (pipeURI "host" ["pipe", "", "name"])
          = id (pipePath "host" ["pipe", "", "name"]) ∧
        '/' ∉ (pipeAddress (pipeURI "host" ["pipe", "", "name"])).data ∧
        ¬ containsText (pipeAddress (pipeURI "host" ["pipe", "", "name"])) "namedpipe://") :=
  ⟨by decide, by decide,
    NamedPipeConnect_address id "host" ["pipe", "", "name"] (by decide) (by decide)
      (by decide)⟩

end Namedpipe
